import Mathlib

/-!
Verification development for the gravitational-memory RAG booster
(booster.py).

The Python source is shallowly embedded.  Arbitrary-precision Python
integers become Nat or Int.  Python floats that never influence any
observable integer value (orbital energies and phases) are modelled as
real numbers.  Text is modelled as lists of Unicode code points, so that
the ASCII tokenisation rules of the source become decidable list
operations.  External collaborators are passed in as explicit
parameters: the md5 digest as a function from text to a natural number,
the random source of encode as a function from call index to a real
number, and the HTTP completion boundary as an outcome value.
-/

/-- Orbital state record, from the OrbitalState dataclass: principal
quantum number n, angular momentum l, magnetic projection m, the
occupied flag, the derived energy and the quantum phase. -/
structure OrbitalState where
  n : ℤ
  l : ℤ
  m : ℤ
  occupied : Bool
  energy : ℝ
  phase : ℝ

/-- Python range(a, b) with step 1 over integers: empty when b ≤ a. -/
def pyRange (a b : ℤ) : List ℤ :=
  (List.range (b - a).toNat).map fun t : ℕ => a + (t : ℤ)

/-- State of a GravitationalBit object: the level n_max, the scalar
nucleus field, the ordered slot list and the operation counter. -/
structure GravitationalBit where
  n_max : ℤ
  nucleus_field : ℝ
  states : List OrbitalState
  operation_count : ℕ

/-- Embeds GravitationalBit.__init__: for n in range(1, n_max+1), l in
range(n), m in range(-l, l+1), one unoccupied state with energy
-13.6/(n*n) and phase 0 is generated.  No validation is performed on
the level: a non-positive level simply yields an empty state list. -/
noncomputable def GravitationalBit.init (compression_level : ℤ) : GravitationalBit :=
  { n_max := compression_level
    nucleus_field := 1
    operation_count := 0
    states :=
      (pyRange 1 (compression_level + 1)).flatMap fun n =>
        (pyRange 0 n).flatMap fun l =>
          (pyRange (-l) (l + 1)).map fun m =>
            { n := n, l := l, m := m, occupied := false
              energy := -13.6 / ((n : ℝ) * (n : ℝ)), phase := 0 } }

/-- The indexed loop of GravitationalBit.encode: slot i receives
occupied = (value >> i) & 1 and, when occupied, a fresh random phase
rnd i * 2 * pi, else phase 0.  rnd models the stream of random() calls. -/
noncomputable def encodeStates (value : ℕ) (rnd : ℕ → ℝ) : ℕ → List OrbitalState → List OrbitalState
  | _, [] => []
  | i, s :: rest =>
    (if ((value >>> i) &&& 1) == 1 then
      { s with occupied := true, phase := rnd i * 2 * Real.pi }
     else
      { s with occupied := false, phase := 0 }) :: encodeStates value rnd (i + 1) rest

/-- Embeds GravitationalBit.encode, incrementing the operation counter. -/
noncomputable def GravitationalBit.encode (b : GravitationalBit) (rnd : ℕ → ℝ) (value : ℕ) :
    GravitationalBit :=
  { b with states := encodeStates value rnd 0 b.states
           operation_count := b.operation_count + 1 }

/-- The accumulator loop of GravitationalBit.decode: starting from
value 0 at index 0, every occupied slot ors in 1 << i. -/
def decodeStates : ℕ → ℕ → List OrbitalState → ℕ
  | acc, _, [] => acc
  | acc, i, s :: rest =>
    decodeStates (if s.occupied then acc ||| (1 <<< i) else acc) (i + 1) rest

/-- Embeds GravitationalBit.decode: returns the decoded integer and the
bit with its operation counter incremented. -/
def GravitationalBit.decode (b : GravitationalBit) : ℕ × GravitationalBit :=
  (decodeStates 0 0 b.states, { b with operation_count := b.operation_count + 1 })

/-- The per-slot body of GravitationalBit.propagate: an occupied slot
has its phase advanced by energy * dt * field and reduced modulo 2*pi
(Python float modulo: x - y * floor (x / y)); an unoccupied slot is
untouched. -/
noncomputable def propagateState (field dt : ℝ) (s : OrbitalState) : OrbitalState :=
  if s.occupied then
    { s with phase :=
        (s.phase + s.energy * dt * field) -
          2 * Real.pi * (⌊(s.phase + s.energy * dt * field) / (2 * Real.pi)⌋ : ℤ) }
  else s

/-- Embeds GravitationalBit.propagate (default dt = 0.01), incrementing
the operation counter. -/
noncomputable def GravitationalBit.propagate (b : GravitationalBit) (dt : ℝ) : GravitationalBit :=
  { b with states := b.states.map (propagateState b.nucleus_field dt)
           operation_count := b.operation_count + 1 }

/-- Embeds GravitationalBit.verify_integrity: decodes (which increments
the counter) and compares with the original value. -/
def GravitationalBit.verify_integrity (b : GravitationalBit) (original_value : ℕ) :
    Bool × GravitationalBit :=
  (b.decode.1 == original_value, b.decode.2)

/-- Text is a list of Unicode code points; this converts a Lean string
literal for readable concrete inputs. -/
def codes (s : String) : List ℕ := s.data.map Char.toNat

/-- The characters Python str.split() treats as whitespace (ASCII). -/
def pyWhitespace : List ℕ := [32, 9, 10, 13, 11, 12]

/-- Accumulator loop of Python str.split() with no separator: runs of
whitespace separate words, empty words are dropped. -/
def splitAux : List ℕ → List ℕ → List (List ℕ)
  | acc, [] => if acc = [] then [] else [acc.reverse]
  | acc, c :: cs =>
    if c ∈ pyWhitespace then
      (if acc = [] then splitAux [] cs else acc.reverse :: splitAux [] cs)
    else splitAux (c :: acc) cs

/-- Python text.split(): split on whitespace runs, dropping empties. -/
def splitWords (s : List ℕ) : List (List ℕ) := splitAux [] s

/-- The fixed surrounding-punctuation set of the source, as code
points: period comma bang question semicolon colon double quote single
quote parens square brackets curly brackets. -/
def stripSet : List ℕ := [46, 44, 33, 63, 59, 58, 34, 39, 40, 41, 91, 93, 123, 125]

/-- Drop leading characters that belong to the strip set. -/
def stripDrop (w : List ℕ) : List ℕ := w.dropWhile fun c => decide (c ∈ stripSet)

/-- Python w.strip(punctuation): remove the strip-set characters from
both ends. -/
def pyStrip (w : List ℕ) : List ℕ := (stripDrop ((stripDrop w).reverse)).reverse

/-- ASCII case of Python str.lower() on one code point. -/
def lowerCode (c : ℕ) : ℕ := if 65 ≤ c ∧ c ≤ 90 then c + 32 else c

/-- Python s.lower() on a code-point list (ASCII model). -/
def pyLower (s : List ℕ) : List ℕ := s.map lowerCode

/-- The tokens store_chunk feeds into the keyword index: lowercase the
whole text, split on whitespace, strip each word, keep the stripped
word when its stripped length exceeds 3. -/
def indexTokens (text : List ℕ) : List (List ℕ) :=
  (splitWords (pyLower text)).filterMap fun w =>
    if 3 < (pyStrip w).length then some (pyStrip w) else none

/-- The query tokens of retrieve_relevant_context: split the raw query
on whitespace, keep words whose raw length exceeds 3, lowercase and
strip each kept word. -/
def queryTokens (query : List ℕ) : List (List ℕ) :=
  ((splitWords query).filter fun w => decide (3 < w.length)).map fun w => pyStrip (pyLower w)

/-- Python dict update d[k] = f(d.get(k)): an existing key keeps its
position and is given the new value, a missing key is appended. -/
def dictUpd {κ β : Type} [DecidableEq κ] (k : κ) (f : Option β → β) :
    List (κ × β) → List (κ × β)
  | [] => [(k, f none)]
  | (k0, v0) :: rest =>
    if k0 = k then (k0, f (some v0)) :: rest else (k0, v0) :: dictUpd k f rest

/-- One entry of GravitationalMemory.storage: the stored unit, the raw
text, the content hash and the integrity flag. -/
structure StoredChunk where
  bit : GravitationalBit
  text : List ℕ
  hash : ℕ
  integrity : Bool

/-- State of a GravitationalMemory object.  storage and index are
Python dicts, modelled as association lists in insertion order; the
three counters are the stats dict. -/
structure GravitationalMemory where
  compression_level : ℤ
  storage : List (String × StoredChunk)
  index : List (List ℕ × List String)
  total_chunks : ℕ
  total_bits : ℕ
  indexed_keywords : ℕ

/-- Embeds GravitationalMemory.__init__. -/
def GravitationalMemory.init (compression_level : ℤ) : GravitationalMemory :=
  { compression_level := compression_level, storage := [], index := []
    total_chunks := 0, total_bits := 0, indexed_keywords := 0 }

/-- Embeds GravitationalMemory.store_chunk.  The md5 digest of the text
(an external library call) is the parameter md5; the random source of
encode is rnd.  The bit is built, the hash is encoded modulo
2^(state count), the pre-propagation decode is captured, one propagate
step with dt = 0.01 runs, integrity is verified, the entry is stored
under chunk_id (overwriting any previous entry), the keyword index and
the stats are updated. -/
noncomputable def GravitationalMemory.store_chunk (mem : GravitationalMemory)
    (md5 : List ℕ → ℕ) (rnd : ℕ → ℝ) (chunk_id : String) (text : List ℕ) :
    GravitationalMemory :=
  let bit0 := GravitationalBit.init mem.compression_level
  let text_hash := md5 text
  let bit1 := bit0.encode rnd (text_hash % 2 ^ bit0.states.length)
  let dec := bit1.decode
  let original := dec.1
  let bit2 := dec.2.propagate (1 / 100)
  let ver := bit2.verify_integrity original
  let newIndex := (indexTokens text).foldl
    (fun ix w => dictUpd w (fun o => o.getD [] ++ [chunk_id]) ix) mem.index
  { mem with
    storage := dictUpd chunk_id (fun _ =>
      { bit := ver.2, text := text, hash := text_hash, integrity := ver.1 }) mem.storage
    index := newIndex
    total_chunks := mem.total_chunks + 1
    total_bits := mem.total_bits + 1
    indexed_keywords := newIndex.length }

/-- The chunking loop of store_document: consecutive groups of
chunk_size words, each joined with single spaces.  The recursion is
driven by fuel; fuel = length of the word list always suffices because
every step consumes at least one word (chunk_size is 200 at every call
site of the source). -/
def chunkTexts (chunk_size : ℕ) : ℕ → List (List ℕ) → List (List ℕ)
  | _, [] => []
  | 0, _ :: _ => []
  | fuel + 1, w :: rest =>
    List.intercalate [32] (w :: rest.take (chunk_size - 1)) ::
      chunkTexts chunk_size fuel (rest.drop (chunk_size - 1))

/-- Return value of store_document. -/
structure DocResult where
  chunks : ℕ
  bits : ℕ
  compression_ratio : ℚ
  indexed_keywords : ℕ
  integrity : String

/-- Embeds GravitationalMemory.store_document: split the text into
words, group them into chunks of chunk_size, store every chunk under an
id derived from the digest of the chunk text (the digest-prefix
derivation is the external parameter chunkId), then report the declared
compression ratio len(text) / (total_bits * level^2) with the
division-by-zero guard returning 0.  total_bits is the memory-wide
cumulative counter, not the number of units created by this call. -/
noncomputable def GravitationalMemory.store_document (mem : GravitationalMemory)
    (md5 : List ℕ → ℕ) (chunkId : List ℕ → String) (rnd : ℕ → ℝ) (text : List ℕ)
    (chunk_size : ℕ := 200) : DocResult × GravitationalMemory :=
  let ws := splitWords text
  let ctexts := chunkTexts chunk_size ws.length ws
  let mem2 := ctexts.foldl (fun m ct => m.store_chunk md5 rnd (chunkId ct) ct) mem
  let original_size : ℚ := (text.length : ℚ)
  let compressed_size : ℚ :=
    (mem2.total_bits : ℚ) * ((mem2.compression_level : ℚ) * (mem2.compression_level : ℚ))
  ({ chunks := ctexts.length
     bits := mem2.total_bits
     compression_ratio := if 0 < compressed_size then original_size / compressed_size else 0
     indexed_keywords := mem2.indexed_keywords
     integrity := "100%" }, mem2)

/-- Stable insertion of x into a list already sorted by key descending:
x passes the strictly greater keys and stops before the first key that
is less than or equal to its own, so earlier-listed elements with an
equal key stay in front. -/
def insertDesc {α : Type} (key : α → ℕ) (x : α) : List α → List α
  | [] => [x]
  | y :: ys => if key x < key y then y :: insertDesc key x ys else x :: y :: ys

/-- Stable descending sort by key, modelling Python
sorted(..., key=..., reverse=True).  Python sorted is stable, and all
stable sorts of a list under the same key agree extensionally; this
insertion sort is the structurally recursive one. -/
def isortDesc {α : Type} (key : α → ℕ) : List α → List α
  | [] => []
  | x :: xs => insertDesc key x (isortDesc key xs)

/-- The ordering a stable descending sort guarantees between elements
of its output: strictly larger key first, and the input order R between
elements of equal key. -/
def tieOrder {α : Type} (key : α → ℕ) (R : α → α → Prop) (a b : α) : Prop :=
  key b < key a ∨ (key a = key b ∧ R a b)

/-- Python scores.get(chunk_id): look the key up in the score dict. -/
def scoreGet (scores : List (String × ℕ)) (k : String) : ℕ :=
  ((scores.find? fun p => p.1 == k).map Prod.snd).getD 0

/-- The scoring loop of retrieve_relevant_context: for every query word
present in the index, every occurrence of a chunk id in that word's
list adds one to the chunk's score.  The dict keeps first-insertion
order of keys. -/
def buildScores (index : List (List ℕ × List String)) (query_words : List (List ℕ)) :
    List (String × ℕ) :=
  query_words.foldl (fun scores w =>
    match index.find? fun p => p.1 == w with
    | some p => p.2.foldl (fun sc cid => dictUpd cid (fun o => o.getD 0 + 1) sc) scores
    | none => scores) []

/-- The top-K selection of retrieve_relevant_context: when no query
word scored, fall back to the first top_k stored chunk ids; otherwise
stably sort the score-dict keys by score descending and take top_k. -/
def GravitationalMemory.top_chunks (mem : GravitationalMemory) (query : List ℕ)
    (top_k : ℕ) : List String :=
  let query_words := queryTokens query
  let scores := buildScores mem.index query_words
  if scores = [] then (mem.storage.map Prod.fst).take top_k
  else (isortDesc (scoreGet scores) (scores.map Prod.fst)).take top_k

/-- Embeds GravitationalMemory.retrieve_relevant_context: the selected
chunks' texts joined with blank lines. -/
def GravitationalMemory.retrieve_relevant_context (mem : GravitationalMemory)
    (query : List ℕ) (top_k : ℕ) : List ℕ :=
  List.intercalate [10, 10]
    ((mem.top_chunks query top_k).filterMap fun cid =>
      (mem.storage.find? fun p => p.1 == cid).map fun p => p.2.text)

/-- State of an LLMRAGBooster object. -/
structure LLMRAGBooster where
  api_url : String
  api_key : String
  model : String
  memory : GravitationalMemory
  compression_level : ℤ

/-- Embeds LLMRAGBooster.__init__. -/
def LLMRAGBooster.init (api_url api_key model : String) (compression_level : ℤ) :
    LLMRAGBooster :=
  { api_url := api_url, api_key := api_key, model := model
    memory := GravitationalMemory.init compression_level
    compression_level := compression_level }

/-- The prompt LLMRAGBooster.ask builds before calling the completion
boundary: with memory, the f-string
"Context (from gravitational memory):\n{context}\n\nQuestion:
{question}\n\nAnswer based on the context above:"; without memory, the
bare question. -/
def LLMRAGBooster.askPrompt (b : LLMRAGBooster) (question : List ℕ) (use_memory : Bool)
    (top_k : ℕ) : List ℕ :=
  if use_memory then
    codes "Context (from gravitational memory):\n" ++
      b.memory.retrieve_relevant_context question top_k ++
      codes "\n\nQuestion: " ++ question ++
      codes "\n\nAnswer based on the context above:"
  else question

/-- Return value of LLMRAGBooster.get_stats. -/
structure Stats where
  chunks : ℕ
  bits : ℕ
  indexed_keywords : ℕ
  compression_level : ℤ
  states_per_bit : ℤ
  integrity : String

/-- Embeds LLMRAGBooster.get_stats.  Python // is floor division; Lean
integer division rounds the same way for the positive divisor 6 used
here. -/
def LLMRAGBooster.get_stats (b : LLMRAGBooster) : Stats :=
  { chunks := b.memory.total_chunks
    bits := b.memory.total_bits
    indexed_keywords := b.memory.indexed_keywords
    compression_level := b.compression_level
    states_per_bit :=
      b.compression_level * (b.compression_level + 1) * (2 * b.compression_level + 1) / 6
    integrity := "100%" }

/-- Return value of the module-level init function. -/
structure InitResult where
  success : Bool
  model : String
  compression_states : ℕ

/-- Embeds the module-level init: builds the booster at level 15 and
reports the hardcoded declared state count 1240. -/
def allpath_init (api_url api_key model_name : String) : InitResult × LLMRAGBooster :=
  ({ success := true, model := model_name, compression_states := 1240 },
   LLMRAGBooster.init api_url api_key model_name 15)

/-- JSON values, as response.json() can produce them. -/
inductive Json where
  | null : Json
  | bool : Bool → Json
  | num : ℤ → Json
  | str : String → Json
  | arr : List Json → Json
  | obj : List (String × Json) → Json

/-- Is the code-point list n a prefix of l. -/
def startsB : List Char → List Char → Bool
  | [], _ => true
  | _ :: _, [] => false
  | a :: as, b :: bs => a == b && startsB as bs

/-- Is n a contiguous substring of l. -/
def infixB (n : List Char) : List Char → Bool
  | [] => startsB n []
  | c :: cs => startsB n (c :: cs) || infixB n cs

mutual

/-- Python str() of a response value (dict/list repr), used by the
fallthrough branches of ask. -/
def pyStr : Json → String
  | .null => "None"
  | .bool true => "True"
  | .bool false => "False"
  | .num n => toString n
  | .str s => "\x27" ++ s ++ "\x27"
  | .arr es => "[" ++ pyStrList es ++ "]"
  | .obj fs => "\x7b" ++ pyStrFields fs ++ "\x7d"

/-- Comma-separated repr of list elements. -/
def pyStrList : List Json → String
  | [] => ""
  | [e] => pyStr e
  | e :: e2 :: es => pyStr e ++ ", " ++ pyStrList (e2 :: es)

/-- Comma-separated repr of dict fields. -/
def pyStrFields : List (String × Json) → String
  | [] => ""
  | [(k, v)] => "\x27" ++ k ++ "\x27: " ++ pyStr v
  | (k, v) :: f2 :: fs => "\x27" ++ k ++ "\x27: " ++ pyStr v ++ ", " ++ pyStrFields (f2 :: fs)

end

/-- Python "k in data": key membership for a dict, element membership
for a list, substring test for a string, TypeError otherwise.  Raised
exceptions are modelled as Except.error carrying the message of
str(e). -/
def pyContains (j : Json) (k : String) : Except String Bool :=
  match j with
  | .obj fs => .ok (fs.any fun p => p.1 == k)
  | .arr es => .ok (es.any fun e => match e with | .str s => s == k | _ => false)
  | .str s => .ok (infixB k.data s.data)
  | _ => .error "argument of type is not iterable"

/-- Python data[k] for a string key: dict lookup raising KeyError on a
missing key, TypeError on non-dicts. -/
def pyGetItem (j : Json) (k : String) : Except String Json :=
  match j with
  | .obj fs =>
    match fs.find? fun p => p.1 == k with
    | some p => .ok p.2
    | none => .error ("KeyError: " ++ k)
  | _ => .error "TypeError: value is not subscriptable by str"

/-- Python data[i] for an int index: list indexing raising IndexError
out of range; a string yields its i-th character as a string;
TypeError otherwise. -/
def pyIndexItem (j : Json) (i : ℕ) : Except String Json :=
  match j with
  | .arr es =>
    match es.get? i with
    | some e => .ok e
    | none => .error "IndexError: list index out of range"
  | .str s =>
    match s.data.get? i with
    | some c => .ok (.str (String.mk [c]))
    | none => .error "IndexError: string index out of range"
  | _ => .error "TypeError: value is not subscriptable by int"

/-- Python data.get(k, default) on a dict; AttributeError on
non-dicts. -/
def pyDictGet (j : Json) (k : String) (dflt : Json) : Except String Json :=
  match j with
  | .obj fs => .ok (((fs.find? fun p => p.1 == k).map Prod.snd).getD dflt)
  | _ => .error "AttributeError: value has no attribute get"

/-- The response-shape dispatch of LLMRAGBooster.ask, inside the try
block: choices[0].message.content, then content (list-of-parts or
plain), then response, then message.content with str(data) fallback,
else str(data). -/
def extractAnswer (data : Json) : Except String Json := do
  if (← pyContains data "choices") then
    pyGetItem (← pyGetItem (← pyIndexItem (← pyGetItem data "choices") 0) "message") "content"
  else if (← pyContains data "content") then
    match ← pyGetItem data "content" with
    | .arr es => do
      let e0 ← pyIndexItem (.arr es) 0
      pyDictGet e0 "text" (.str (pyStr data))
    | c => pure c
  else if (← pyContains data "response") then
    pyGetItem data "response"
  else if (← pyContains data "message") then
    pyDictGet (← pyGetItem data "message") "content" (.str (pyStr data))
  else
    pure (.str (pyStr data))

/-- What the completion boundary did: returned parsed JSON, or raised a
transport/parse exception with message m.  requests.post and
response.json() are the external collaborators this models. -/
inductive BoundaryOutcome where
  | ok : Json → BoundaryOutcome
  | exn : String → BoundaryOutcome

/-- The result LLMRAGBooster.ask returns for a boundary outcome: the
extracted answer, or the except-branch string
"ERROR calling LLM: " ++ str(e) when the boundary or the extraction
raised.  Total by construction: every outcome yields a value. -/
def handleBoundary (outcome : BoundaryOutcome) : Json :=
  match outcome with
  | .exn m => .str ("ERROR calling LLM: " ++ m)
  | .ok data =>
    match extractAnswer data with
    | .ok ans => ans
    | .error m => .str ("ERROR calling LLM: " ++ m)

/-- Trivial md5 stand-in for concrete runs (the digest value never
matters to the properties evaluated on concrete inputs). -/
def md0 : List ℕ → ℕ := fun _ => 0

/-- Trivial chunk-id derivation stand-in for concrete runs. -/
def id0 : List ℕ → String := fun _ => ""

/-- Trivial random source for concrete runs. -/
noncomputable def rnd0 : ℕ → ℝ := fun _ => 0

/-- Concrete memory at level 1 with fragment a = "alpha" stored before
fragment b = "betab". -/
noncomputable def memAB : GravitationalMemory :=
  ((GravitationalMemory.init 1).store_chunk md0 rnd0 "a" (codes "alpha")).store_chunk
    md0 rnd0 "b" (codes "betab")

/-- The compression ratio reported by the (n+1)-th call of
store_document with the same text on a memory that starts empty at
level L: n calls run first, then the ratio of one more call is read. -/
noncomputable def docRatioSeq (L : ℤ) (md5 : List ℕ → ℕ) (chunkId : List ℕ → String)
    (rnd : ℕ → ℝ) (text : List ℕ) (n : ℕ) : ℚ :=
  (((fun m => (GravitationalMemory.store_document m md5 chunkId rnd text).2)^[n]
      (GravitationalMemory.init L)).store_document md5 chunkId rnd text).1.compression_ratio

/-- A natural below 2 ^ i ored with 2 ^ i is their sum: the two have no
common bits. -/
theorem lor_two_pow_of_lt : ∀ (i a : ℕ), a < 2 ^ i → a ||| 2 ^ i = a + 2 ^ i := by
  intro i
  induction i with
  | zero =>
    intro a ha
    interval_cases a
    decide
  | succ i ih =>
    intro a ha
    have hdiv : a.div2 < 2 ^ i := by
      rw [Nat.div2_val]
      have h := Nat.pow_succ 2 i
      omega
    have h2p : (2 : ℕ) ^ (i + 1) = Nat.bit false (2 ^ i) := by
      rw [Nat.bit_val]
      have h := Nat.pow_succ 2 i
      simp
      omega
    calc a ||| 2 ^ (i + 1)
        = Nat.bit a.bodd a.div2 ||| Nat.bit false (2 ^ i) := by
          rw [Nat.bit_decomp, ← h2p]
      _ = Nat.bit (a.bodd || false) (a.div2 ||| 2 ^ i) := Nat.lor_bit _ _ _ _
      _ = Nat.bit a.bodd (a.div2 + 2 ^ i) := by rw [Bool.or_false, ih _ hdiv]
      _ = a + 2 ^ (i + 1) := by
          rw [Nat.bit_val]
          have hd := Nat.bit_val a.bodd a.div2
          rw [Nat.bit_decomp] at hd
          have h := Nat.pow_succ 2 i
          omega

/-- Splitting a remainder modulo 2 * P into its low bit and the
remainder of the half. -/
theorem mod_two_mul_split (u P : ℕ) (hP : 0 < P) :
    u % (2 * P) = u % 2 + 2 * (u / 2 % P) := by
  have h1 : u = 2 * P * (u / 2 / P) + (2 * (u / 2 % P) + u % 2) := by
    have a2 : P * (u / 2 / P) + u / 2 % P = u / 2 := Nat.div_add_mod (u / 2) P
    calc u = 2 * (u / 2) + u % 2 := (Nat.div_add_mod u 2).symm
      _ = 2 * (P * (u / 2 / P) + u / 2 % P) + u % 2 := by rw [a2]
      _ = 2 * P * (u / 2 / P) + (2 * (u / 2 % P) + u % 2) := by ring
  have h2 : 2 * (u / 2 % P) + u % 2 < 2 * P := by
    have hm := Nat.mod_lt (u / 2) hP
    omega
  calc u % (2 * P) = (2 * P * (u / 2 / P) + (2 * (u / 2 % P) + u % 2)) % (2 * P) := by
        rw [← h1]
    _ = (2 * (u / 2 % P) + u % 2) % (2 * P) := by rw [Nat.mul_add_mod]
    _ = 2 * (u / 2 % P) + u % 2 := Nat.mod_eq_of_lt h2
    _ = u % 2 + 2 * (u / 2 % P) := by ring

/-- Invariant of the decode loop run over the output of the encode loop
at the same start index. -/
theorem decodeStates_encodeStates :
    ∀ (l : List OrbitalState) (i acc value : ℕ) (rnd : ℕ → ℝ), acc < 2 ^ i →
      decodeStates acc i (encodeStates value rnd i l) =
        acc + 2 ^ i * ((value >>> i) % 2 ^ l.length) := by
  intro l
  induction l with
  | nil =>
    intro i acc value rnd _
    simp [decodeStates, encodeStates, Nat.mod_one]
  | cons s rest ih =>
    intro i acc value rnd hacc
    have hps : (2 : ℕ) ^ (i + 1) = 2 ^ i * 2 := Nat.pow_succ 2 i
    have hsr : value >>> (i + 1) = (value >>> i) / 2 := Nat.shiftRight_succ value i
    have hone : (1 : ℕ) <<< i = 2 ^ i := by
      rw [Nat.shiftLeft_eq, Nat.one_mul]
    have hmod : (value >>> i) % 2 ^ (rest.length + 1) =
        (value >>> i) % 2 + 2 * ((value >>> (i + 1)) % 2 ^ rest.length) := by
      rw [hsr, pow_succ, Nat.mul_comm (2 ^ rest.length) 2]
      exact mod_two_mul_split _ _ (Nat.pos_pow_of_pos _ (by norm_num))
    have h01 : (value >>> i) % 2 = 0 ∨ (value >>> i) % 2 = 1 := by omega
    rcases h01 with h0 | h1
    · have hbeq : (((value >>> i) &&& 1) == 1) = false := by
        rw [Nat.and_one_is_mod, h0]
        decide
      simp only [encodeStates, hbeq, Bool.false_eq_true, if_false, decodeStates]
      rw [ih (i + 1) acc value rnd (by omega)]
      simp only [List.length_cons, hmod, h0]
      ring
    · have hbeq : (((value >>> i) &&& 1) == 1) = true := by
        rw [Nat.and_one_is_mod, h1]
        decide
      simp only [encodeStates, hbeq, if_true, decodeStates]
      rw [hone, lor_two_pow_of_lt i acc hacc,
        ih (i + 1) (acc + 2 ^ i) value rnd (by omega)]
      simp only [List.length_cons, hmod, h1]
      ring

/-- decode after encode on any slot list yields the value truncated to
the low bits, one bit per slot. -/
theorem decode_encode_eq_mod (l : List OrbitalState) (value : ℕ) (rnd : ℕ → ℝ) :
    decodeStates 0 0 (encodeStates value rnd 0 l) = value % 2 ^ l.length := by
  have h := decodeStates_encodeStates l 0 0 value rnd (by norm_num)
  simpa using h

/-- The decode loop only reads the occupied flags: a map that preserves
them leaves the decoded value unchanged. -/
theorem decodeStates_map_of_occupied_eq (f : OrbitalState → OrbitalState)
    (hf : ∀ s, (f s).occupied = s.occupied) :
    ∀ (l : List OrbitalState) (acc i : ℕ),
      decodeStates acc i (l.map f) = decodeStates acc i l := by
  intro l
  induction l with
  | nil => intro acc i; rfl
  | cons s rest ih =>
    intro acc i
    simp only [List.map_cons, decodeStates, hf s]
    exact ih _ _

/-- propagateState never changes the occupied flag. -/
theorem propagateState_occupied (field dt : ℝ) (s : OrbitalState) :
    (propagateState field dt s).occupied = s.occupied := by
  unfold propagateState
  split <;> rfl

/-- One propagate step leaves the decoded value unchanged. -/
theorem decode_propagate (b : GravitationalBit) (dt : ℝ) :
    (b.propagate dt).decode.1 = b.decode.1 := by
  show decodeStates 0 0 (b.states.map (propagateState b.nucleus_field dt)) =
    decodeStates 0 0 b.states
  exact decodeStates_map_of_occupied_eq _ (propagateState_occupied _ _) _ _ _

/-- Any number of propagate steps leaves the decoded value unchanged. -/
theorem decode_propagate_iterate (b : GravitationalBit) (dt : ℝ) (k : ℕ) :
    ((fun x => GravitationalBit.propagate x dt)^[k] b).decode.1 = b.decode.1 := by
  induction k with
  | zero => rfl
  | succ k ih =>
    rw [Function.iterate_succ_apply']
    rw [decode_propagate _ dt]
    exact ih

/-- Python range lists have length b - a (clamped at 0). -/
theorem pyRange_length (a b : ℤ) : (pyRange a b).length = (b - a).toNat := by
  rw [pyRange, List.length_map, List.length_range]

/-- A Python range whose extent is the natural k, as a mapped
List.range. -/
theorem pyRange_cast (a : ℤ) (k : ℕ) (b : ℤ) (hb : b - a = (k : ℤ)) :
    pyRange a b = (List.range k).map fun t : ℕ => a + (t : ℤ) := by
  unfold pyRange
  rw [hb, Int.toNat_ofNat]

/-- Sum of the first n odd numbers. -/
theorem sum_odd (n : ℕ) : ((List.range n).map fun t => 2 * t + 1).sum = n * n := by
  induction n with
  | zero => simp
  | succ n ih =>
    rw [List.range_succ, List.map_append, List.sum_append]
    simp only [List.map_cons, List.map_nil, List.sum_cons, List.sum_nil, ih]
    ring

/-- Six times the sum of the first k squares. -/
theorem sum_squares_mul_six (k : ℕ) :
    6 * ((List.range k).map fun j => (j + 1) * (j + 1)).sum = k * (k + 1) * (2 * k + 1) := by
  induction k with
  | zero => simp
  | succ k ih =>
    rw [List.range_succ, List.map_append, List.sum_append]
    simp only [List.map_cons, List.map_nil, List.sum_cons, List.sum_nil]
    have hsplit : 6 * (((List.range k).map fun j => (j + 1) * (j + 1)).sum +
        ((k + 1) * (k + 1) + 0)) =
        6 * ((List.range k).map fun j => (j + 1) * (j + 1)).sum + 6 * ((k + 1) * (k + 1)) := by
      ring
    rw [hsplit, ih]
    ring

/-- The m-loop for a given l = j contributes 2j + 1 slots. -/
theorem inner_len (l : ℤ) (f : ℤ → OrbitalState) (j : ℕ) (hl : l = (j : ℤ)) :
    ((pyRange (-l) (l + 1)).map f).length = 2 * j + 1 := by
  rw [List.length_map, pyRange_length]
  omega

/-- The l-loop for a given n = t + 1 contributes (t+1)^2 slots. -/
theorem mid_len (n : ℤ) (t : ℕ) (hn : n = (t : ℤ) + 1) (f : ℤ → ℤ → OrbitalState) :
    ((pyRange 0 n).flatMap fun l => (pyRange (-l) (l + 1)).map (f l)).length
      = (t + 1) * (t + 1) := by
  rw [List.length_flatMap, pyRange_cast 0 (t + 1) n (by omega), List.map_map]
  have hg : ∀ u ∈ List.range (t + 1),
      ((List.length ∘ fun l => (pyRange (-l) (l + 1)).map (f l)) ∘ fun u : ℕ => (0 : ℤ) + (u : ℤ)) u
        = 2 * u + 1 := by
    intro u _
    simp only [Function.comp_apply]
    exact inner_len _ _ u (by omega)
  rw [List.map_congr_left hg]
  exact sum_odd (t + 1)

/-- The generated state list of a level-k bit has the sum-of-squares
size. -/
theorem init_states_length_sum (k : ℕ) :
    (GravitationalBit.init (k : ℤ)).states.length
      = ((List.range k).map fun j => (j + 1) * (j + 1)).sum := by
  show ((pyRange 1 ((k : ℤ) + 1)).flatMap fun n =>
    (pyRange 0 n).flatMap fun l =>
      (pyRange (-l) (l + 1)).map fun m =>
        { n := n, l := l, m := m, occupied := false
          energy := -13.6 / ((n : ℝ) * (n : ℝ)), phase := 0 : OrbitalState }).length = _
  rw [List.length_flatMap, pyRange_cast 1 k ((k : ℤ) + 1) (by omega), List.map_map]
  have hg : ∀ t ∈ List.range k,
      ((List.length ∘ fun n => (pyRange 0 n).flatMap fun l =>
        (pyRange (-l) (l + 1)).map fun m =>
          { n := n, l := l, m := m, occupied := false
            energy := -13.6 / ((n : ℝ) * (n : ℝ)), phase := 0 : OrbitalState }) ∘
        fun t : ℕ => (1 : ℤ) + (t : ℤ)) t = (t + 1) * (t + 1) := by
    intro t _
    simp only [Function.comp_apply]
    exact mid_len _ t (by omega) _
  rw [List.map_congr_left hg]

/-- Slot count of a level-k bit: the closed sum-of-squares formula. -/
theorem init_states_length (k : ℕ) :
    (GravitationalBit.init (k : ℤ)).states.length = k * (k + 1) * (2 * k + 1) / 6 := by
  have h := init_states_length_sum k
  have h6 := sum_squares_mul_six k
  omega

/-- Lowercasing a code point does not change whether it is whitespace:
only the uppercase letters 65..90 move, to 97..122. -/
theorem lowerCode_mem_ws (c : ℕ) : lowerCode c ∈ pyWhitespace ↔ c ∈ pyWhitespace := by
  unfold lowerCode
  split
  · rename_i h
    constructor
    · intro hm
      exfalso
      simp only [pyWhitespace, List.mem_cons, List.not_mem_nil, or_false] at hm
      omega
    · intro hm
      exfalso
      simp only [pyWhitespace, List.mem_cons, List.not_mem_nil, or_false] at hm
      omega
  · exact Iff.rfl

/-- The split loop commutes with lowercasing, because lowercasing
preserves the whitespace test. -/
theorem splitAux_pyLower : ∀ (s acc : List ℕ),
    splitAux (acc.map lowerCode) (s.map lowerCode) = (splitAux acc s).map (List.map lowerCode) := by
  intro s
  induction s with
  | nil =>
    intro acc
    by_cases h : acc = []
    · subst h
      simp [splitAux]
    · have h2 : acc.map lowerCode ≠ [] := by simpa using h
      simp only [List.map_nil, splitAux, if_neg h2, if_neg h]
      simp [List.map_reverse]
  | cons c cs ih =>
    intro acc
    simp only [List.map_cons, splitAux]
    by_cases hw : c ∈ pyWhitespace
    · have hw2 : lowerCode c ∈ pyWhitespace := (lowerCode_mem_ws c).mpr hw
      rw [if_pos hw2, if_pos hw]
      by_cases h : acc = []
      · subst h
        simp only [List.map_nil, if_pos rfl]
        exact ih []
      · have h2 : acc.map lowerCode ≠ [] := by simpa using h
        rw [if_neg h2, if_neg h]
        have hih := ih []
        simp only [List.map_nil] at hih
        simp [hih, List.map_reverse]
    · have hw2 : lowerCode c ∉ pyWhitespace := fun hm => hw ((lowerCode_mem_ws c).mp hm)
      rw [if_neg hw2, if_neg hw]
      have hih := ih (c :: acc)
      simpa using hih

/-- text.lower().split() equals splitting first and lowercasing every
word. -/
theorem splitWords_pyLower (s : List ℕ) :
    splitWords (pyLower s) = (splitWords s).map (List.map lowerCode) := by
  have h := splitAux_pyLower s []
  simpa [splitWords, pyLower] using h

/-- Stripping never lengthens a word. -/
theorem pyStrip_length_le (w : List ℕ) : (pyStrip w).length ≤ w.length := by
  unfold pyStrip stripDrop
  have h1 := (List.dropWhile_sublist (l := w) (p := fun c => decide (c ∈ stripSet))).length_le
  have h2 := (List.dropWhile_sublist
    (l := (w.dropWhile fun c => decide (c ∈ stripSet)).reverse)
    (p := fun c => decide (c ∈ stripSet))).length_le
  simp only [List.length_reverse] at *
  omega

/-- Word-list form of the tokeniser comparison: the index tokens of a
word list are the query tokens of the same words filtered down to
stripped length above 3. -/
theorem tokens_filter (ws : List (List ℕ)) :
    ((ws.map (List.map lowerCode)).filterMap fun w =>
      if 3 < (pyStrip w).length then some (pyStrip w) else none)
    = ((ws.filter fun w => decide (3 < w.length)).map fun w => pyStrip (pyLower w)).filter
        fun t => decide (3 < t.length) := by
  induction ws with
  | nil => rfl
  | cons w ws ih =>
    by_cases hs : 3 < (pyStrip (w.map lowerCode)).length
    · have hw : 3 < w.length := by
        have h1 := pyStrip_length_le (w.map lowerCode)
        have h2 : (w.map lowerCode).length = w.length := by simp
        omega
      simp only [List.map_cons, List.filterMap_cons, if_pos hs, List.filter_cons]
      simp [hw, hs, pyLower, ih]
    · by_cases hw : 3 < w.length
      · simp only [List.map_cons, List.filterMap_cons, if_neg hs, List.filter_cons]
        simp [hw, hs, pyLower, ih]
      · simp only [List.map_cons, List.filterMap_cons, if_neg hs, List.filter_cons]
        simp [hw, pyLower, ih]

/-- The index tokeniser equals the query tokeniser filtered to tokens
whose stripped length exceeds 3. -/
theorem indexTokens_eq_filter_queryTokens (s : List ℕ) :
    indexTokens s = (queryTokens s).filter fun t => decide (3 < t.length) := by
  unfold indexTokens queryTokens
  rw [splitWords_pyLower]
  exact tokens_filter (splitWords s)

/-- Membership in a stable insertion. -/
theorem mem_insertDesc {α : Type} (key : α → ℕ) (x : α) :
    ∀ (l : List α) (a : α), a ∈ insertDesc key x l ↔ a = x ∨ a ∈ l := by
  intro l
  induction l with
  | nil =>
    intro a
    simp [insertDesc]
  | cons y ys ih =>
    intro a
    unfold insertDesc
    split
    · simp only [List.mem_cons, ih]
      tauto
    · simp only [List.mem_cons]

/-- Stable insertion preserves the sortedness-with-ties invariant when
the inserted element is R-before everything present. -/
theorem pairwise_insertDesc {α : Type} (key : α → ℕ) (R : α → α → Prop) (x : α) :
    ∀ (l : List α), l.Pairwise (tieOrder key R) → (∀ y ∈ l, R x y) →
      (insertDesc key x l).Pairwise (tieOrder key R) := by
  intro l
  induction l with
  | nil =>
    intro _ _
    simp [insertDesc]
  | cons y ys ih =>
    intro hp hx
    rw [List.pairwise_cons] at hp
    obtain ⟨hy, hys⟩ := hp
    unfold insertDesc
    split
    · rename_i hlt
      rw [List.pairwise_cons]
      constructor
      · intro a ha
        rw [mem_insertDesc] at ha
        rcases ha with rfl | ha
        · exact Or.inl hlt
        · exact hy a ha
      · exact ih hys fun z hz => hx z (List.mem_cons_of_mem _ hz)
    · rename_i hge
      rw [List.pairwise_cons]
      refine ⟨?_, List.pairwise_cons.mpr ⟨hy, hys⟩⟩
      intro a ha
      rcases List.mem_cons.mp ha with rfl | ha
      · by_cases he : key x = key a
        · exact Or.inr ⟨he, hx a (List.mem_cons_self _ _)⟩
        · exact Or.inl (by omega)
      · have hya := hy a ha
        unfold tieOrder at hya ⊢
        rcases hya with h1 | ⟨h2, _⟩
        · exact Or.inl (by omega)
        · by_cases he : key x = key a
          · exact Or.inr ⟨he, hx a (List.mem_cons_of_mem _ ha)⟩
          · exact Or.inl (by omega)

/-- The stable sort is a permutation at the level of membership. -/
theorem mem_isortDesc {α : Type} (key : α → ℕ) :
    ∀ (l : List α) (a : α), a ∈ isortDesc key l ↔ a ∈ l := by
  intro l
  induction l with
  | nil =>
    intro a
    simp [isortDesc]
  | cons x xs ih =>
    intro a
    simp [isortDesc, mem_insertDesc, ih]

/-- The output of the stable descending sort is pairwise ordered by
key descending with ties resolved by the input order R. -/
theorem pairwise_isortDesc {α : Type} (key : α → ℕ) (R : α → α → Prop) :
    ∀ (l : List α), l.Pairwise R → (isortDesc key l).Pairwise (tieOrder key R) := by
  intro l
  induction l with
  | nil =>
    intro _
    simp [isortDesc]
  | cons x xs ih =>
    intro hp
    rw [List.pairwise_cons] at hp
    obtain ⟨hx, hxs⟩ := hp
    show (insertDesc key x (isortDesc key xs)).Pairwise (tieOrder key R)
    exact pairwise_insertDesc key R x _ (ih hxs)
      fun y hy => hx y ((mem_isortDesc key xs y).mp hy)

/-- The key list of a Python dict update: unchanged when the key was
present, appended otherwise. -/
theorem keys_dictUpd {κ β : Type} [DecidableEq κ] (k : κ) (f : Option β → β) :
    ∀ (st : List (κ × β)), (dictUpd k f st).map Prod.fst =
      if k ∈ st.map Prod.fst then st.map Prod.fst else st.map Prod.fst ++ [k] := by
  intro st
  induction st with
  | nil => simp [dictUpd]
  | cons p rest ih =>
    obtain ⟨k0, v0⟩ := p
    unfold dictUpd
    by_cases h : k0 = k
    · subst h
      simp
    · rw [if_neg h]
      by_cases hm : k ∈ rest.map Prod.fst
      · simp [List.map_cons, ih, hm]
      · have hne : ¬(k = k0) := fun he => h he.symm
        simp [List.map_cons, ih, hm, hne]

/-- Key membership in a Python dict update. -/
theorem mem_keys_dictUpd {κ β : Type} [DecidableEq κ] (k : κ) (f : Option β → β)
    (st : List (κ × β)) (a : κ) :
    a ∈ (dictUpd k f st).map Prod.fst ↔ a ∈ st.map Prod.fst ∨ a = k := by
  rw [keys_dictUpd]
  split
  · rename_i hm
    constructor
    · exact Or.inl
    · rintro (h | rfl)
      · exact h
      · exact hm
  · simp [List.mem_append]

/-- A Python dict update keeps keys duplicate-free. -/
theorem nodup_keys_dictUpd {κ β : Type} [DecidableEq κ] (k : κ) (f : Option β → β)
    (st : List (κ × β)) (h : (st.map Prod.fst).Nodup) :
    ((dictUpd k f st).map Prod.fst).Nodup := by
  rw [keys_dictUpd]
  split
  · exact h
  · rename_i hm
    rw [List.nodup_append]
    refine ⟨h, List.nodup_singleton k, ?_⟩
    intro a ha hb
    rw [List.mem_singleton] at hb
    subst hb
    exact hm ha

/-- Entry count of a Python dict update. -/
theorem length_dictUpd {κ β : Type} [DecidableEq κ] (k : κ) (f : Option β → β)
    (st : List (κ × β)) :
    (dictUpd k f st).length =
      if k ∈ st.map Prod.fst then st.length else st.length + 1 := by
  have h := keys_dictUpd k f st
  have h1 : ((dictUpd k f st).map Prod.fst).length = (dictUpd k f st).length :=
    List.length_map _ _
  have h2 : (st.map Prod.fst).length = st.length := List.length_map _ _
  rw [h] at h1
  split at h1 <;> rename_i hm
  · rw [if_pos hm]
    omega
  · rw [if_neg hm]
    rw [List.length_append] at h1
    simp at h1
    omega

/-- The score-dict keys stay duplicate-free through the inner loop over
one keyword's chunk-id list. -/
theorem nodup_keys_score_foldl (cids : List String) :
    ∀ (sc : List (String × ℕ)), (sc.map Prod.fst).Nodup →
      ((cids.foldl (fun sc cid => dictUpd cid (fun o => o.getD 0 + 1) sc) sc).map Prod.fst).Nodup := by
  induction cids with
  | nil =>
    intro sc h
    exact h
  | cons c cs ih =>
    intro sc h
    exact ih _ (nodup_keys_dictUpd _ _ _ h)

/-- The score dict built by retrieve_relevant_context has
duplicate-free keys. -/
theorem buildScores_keys_nodup (index : List (List ℕ × List String))
    (query_words : List (List ℕ)) :
    ((buildScores index query_words).map Prod.fst).Nodup := by
  unfold buildScores
  have haux : ∀ (qws : List (List ℕ)) (sc : List (String × ℕ)), (sc.map Prod.fst).Nodup →
      ((qws.foldl (fun scores w =>
        match index.find? fun p => p.1 == w with
        | some p => p.2.foldl (fun sc cid => dictUpd cid (fun o => o.getD 0 + 1) sc) scores
        | none => scores) sc).map Prod.fst).Nodup := by
    intro qws
    induction qws with
    | nil =>
      intro sc h
      exact h
    | cons w ws ih =>
      intro sc h
      simp only [List.foldl_cons]
      cases hf : index.find? fun p => p.1 == w with
      | none => exact ih _ h
      | some p => exact ih _ (nodup_keys_score_foldl p.2 sc h)
  exact haux query_words [] (by simp)

/-- store_chunk adds one to the chunk counter. -/
theorem store_chunk_total_chunks (mem : GravitationalMemory) (md5 : List ℕ → ℕ)
    (rnd : ℕ → ℝ) (cid : String) (text : List ℕ) :
    (mem.store_chunk md5 rnd cid text).total_chunks = mem.total_chunks + 1 := rfl

/-- store_chunk adds one to the unit counter. -/
theorem store_chunk_total_bits (mem : GravitationalMemory) (md5 : List ℕ → ℕ)
    (rnd : ℕ → ℝ) (cid : String) (text : List ℕ) :
    (mem.store_chunk md5 rnd cid text).total_bits = mem.total_bits + 1 := rfl

/-- store_chunk never changes the configured level. -/
theorem store_chunk_level (mem : GravitationalMemory) (md5 : List ℕ → ℕ)
    (rnd : ℕ → ℝ) (cid : String) (text : List ℕ) :
    (mem.store_chunk md5 rnd cid text).compression_level = mem.compression_level := rfl

/-- The storage of store_chunk is a Python dict update of the previous
storage at the chunk id. -/
theorem store_chunk_storage (mem : GravitationalMemory) (md5 : List ℕ → ℕ)
    (rnd : ℕ → ℝ) (cid : String) (text : List ℕ) :
    ∃ entry, (mem.store_chunk md5 rnd cid text).storage = dictUpd cid entry mem.storage :=
  ⟨_, rfl⟩

/-- Folding store_chunk over any list adds its length to the chunk
counter. -/
theorem foldl_store_chunk_chunks {α : Type} (md5 : List ℕ → ℕ) (rnd : ℕ → ℝ)
    (kf : α → String) (tf : α → List ℕ) :
    ∀ (l : List α) (mem : GravitationalMemory),
      (l.foldl (fun m a => m.store_chunk md5 rnd (kf a) (tf a)) mem).total_chunks =
        mem.total_chunks + l.length := by
  intro l
  induction l with
  | nil =>
    intro mem
    simp
  | cons a as ih =>
    intro mem
    simp only [List.foldl_cons, ih, store_chunk_total_chunks, List.length_cons]
    omega

/-- Folding store_chunk over any list adds its length to the unit
counter. -/
theorem foldl_store_chunk_bits {α : Type} (md5 : List ℕ → ℕ) (rnd : ℕ → ℝ)
    (kf : α → String) (tf : α → List ℕ) :
    ∀ (l : List α) (mem : GravitationalMemory),
      (l.foldl (fun m a => m.store_chunk md5 rnd (kf a) (tf a)) mem).total_bits =
        mem.total_bits + l.length := by
  intro l
  induction l with
  | nil =>
    intro mem
    simp
  | cons a as ih =>
    intro mem
    simp only [List.foldl_cons, ih, store_chunk_total_bits, List.length_cons]
    omega

/-- Folding store_chunk never changes the configured level. -/
theorem foldl_store_chunk_level {α : Type} (md5 : List ℕ → ℕ) (rnd : ℕ → ℝ)
    (kf : α → String) (tf : α → List ℕ) :
    ∀ (l : List α) (mem : GravitationalMemory),
      (l.foldl (fun m a => m.store_chunk md5 rnd (kf a) (tf a)) mem).compression_level =
        mem.compression_level := by
  intro l
  induction l with
  | nil =>
    intro mem
    rfl
  | cons a as ih =>
    intro mem
    simp only [List.foldl_cons, ih, store_chunk_level]

/-- Folding store_chunk keeps the storage keys duplicate-free. -/
theorem foldl_store_chunk_keys_nodup {α : Type} (md5 : List ℕ → ℕ) (rnd : ℕ → ℝ)
    (kf : α → String) (tf : α → List ℕ) :
    ∀ (l : List α) (mem : GravitationalMemory), (mem.storage.map Prod.fst).Nodup →
      ((l.foldl (fun m a => m.store_chunk md5 rnd (kf a) (tf a)) mem).storage.map Prod.fst).Nodup := by
  intro l
  induction l with
  | nil =>
    intro mem h
    exact h
  | cons a as ih =>
    intro mem h
    simp only [List.foldl_cons]
    apply ih
    obtain ⟨entry, he⟩ := store_chunk_storage mem md5 rnd (kf a) (tf a)
    rw [he]
    exact nodup_keys_dictUpd _ _ _ h

/-- A key is stored after folding store_chunk exactly when it was
stored before or appears among the folded ids. -/
theorem foldl_store_chunk_keys_mem {α : Type} (md5 : List ℕ → ℕ) (rnd : ℕ → ℝ)
    (kf : α → String) (tf : α → List ℕ) :
    ∀ (l : List α) (mem : GravitationalMemory) (k : String),
      (k ∈ (l.foldl (fun m a => m.store_chunk md5 rnd (kf a) (tf a)) mem).storage.map Prod.fst ↔
        k ∈ mem.storage.map Prod.fst ∨ k ∈ l.map kf) := by
  intro l
  induction l with
  | nil =>
    intro mem k
    simp
  | cons a as ih =>
    intro mem k
    simp only [List.foldl_cons, List.map_cons, List.mem_cons]
    rw [ih]
    obtain ⟨entry, he⟩ := store_chunk_storage mem md5 rnd (kf a) (tf a)
    rw [he, mem_keys_dictUpd]
    tauto

/-- The memory returned by store_document is the fold of store_chunk
over the chunk texts. -/
theorem store_document_snd (mem : GravitationalMemory) (md5 : List ℕ → ℕ)
    (chunkId : List ℕ → String) (rnd : ℕ → ℝ) (text : List ℕ) (sz : ℕ) :
    (mem.store_document md5 chunkId rnd text sz).2 =
      (chunkTexts sz (splitWords text).length (splitWords text)).foldl
        (fun m ct => m.store_chunk md5 rnd (chunkId ct) ct) mem := rfl

/-- The ratio reported by store_document, written out. -/
theorem store_document_ratio (mem : GravitationalMemory) (md5 : List ℕ → ℕ)
    (chunkId : List ℕ → String) (rnd : ℕ → ℝ) (text : List ℕ) (sz : ℕ) :
    (mem.store_document md5 chunkId rnd text sz).1.compression_ratio =
      (if 0 < (((mem.store_document md5 chunkId rnd text sz).2.total_bits : ℚ) *
          (((mem.store_document md5 chunkId rnd text sz).2.compression_level : ℚ) *
            ((mem.store_document md5 chunkId rnd text sz).2.compression_level : ℚ))) then
        (text.length : ℚ) /
          (((mem.store_document md5 chunkId rnd text sz).2.total_bits : ℚ) *
            (((mem.store_document md5 chunkId rnd text sz).2.compression_level : ℚ) *
              ((mem.store_document md5 chunkId rnd text sz).2.compression_level : ℚ)))
      else 0) := rfl

/-- C1: for every non-negative integer v and every level L > 0,
encoding v on a fresh unit and decoding returns v mod 2^slot_count(L):
only the low slot_count bits are read, values exceeding capacity are
truncated, never rejected; the slot count obeys the closed formula. -/
theorem claim_encode_decode_truncates (L : ℤ) (hL : 0 < L) (value : ℕ) (rnd : ℕ → ℝ) :
    ((GravitationalBit.init L).encode rnd value).decode.1 =
      value % 2 ^ (GravitationalBit.init L).states.length ∧
    (GravitationalBit.init L).states.length =
      L.toNat * (L.toNat + 1) * (2 * L.toNat + 1) / 6 := by
  constructor
  · exact decode_encode_eq_mod (GravitationalBit.init L).states value rnd
  · obtain ⟨k, rfl⟩ : ∃ k : ℕ, L = (k : ℤ) :=
      ⟨L.toNat, (Int.toNat_of_nonneg (le_of_lt hL)).symm⟩
    simpa using init_states_length k

/-- Witness for C1 at L = 2, v = 100. -/
theorem claim_encode_decode_truncates_witness :
    (0 : ℤ) < 2 ∧
    (((GravitationalBit.init 2).encode rnd0 100).decode.1 =
        100 % 2 ^ (GravitationalBit.init 2).states.length ∧
      (GravitationalBit.init 2).states.length =
        (2 : ℤ).toNat * ((2 : ℤ).toNat + 1) * (2 * (2 : ℤ).toNat + 1) / 6) :=
  ⟨by norm_num, claim_encode_decode_truncates 2 (by norm_num) 100 rnd0⟩

/-- C2: any number of propagate steps leaves decode unchanged for every
unit state, and verify_integrity(original) is true after any propagate
sequence following encode(original) with original below capacity. -/
theorem claim_propagate_decode_invariant (b : GravitationalBit) (dt : ℝ) (k : ℕ)
    (L : ℤ) (v : ℕ) (rnd : ℕ → ℝ)
    (hv : v < 2 ^ (GravitationalBit.init L).states.length) :
    ((fun x => GravitationalBit.propagate x dt)^[k] b).decode.1 = b.decode.1 ∧
    (((fun x => GravitationalBit.propagate x dt)^[k]
        ((GravitationalBit.init L).encode rnd v)).verify_integrity v).1 = true := by
  constructor
  · exact decode_propagate_iterate b dt k
  · show ((((fun x => GravitationalBit.propagate x dt)^[k]
      ((GravitationalBit.init L).encode rnd v)).decode.1 == v) = true)
    rw [decode_propagate_iterate]
    show ((decodeStates 0 0 (encodeStates v rnd 0 (GravitationalBit.init L).states) == v) = true)
    rw [decode_encode_eq_mod, Nat.mod_eq_of_lt hv]
    exact beq_self_eq_true v

/-- Witness for C2 at L = 1, v = 1, dt = 1, two propagate steps. -/
theorem claim_propagate_decode_invariant_witness :
    1 < 2 ^ (GravitationalBit.init 1).states.length ∧
    (((fun x => GravitationalBit.propagate x 1)^[2] (GravitationalBit.init 1)).decode.1 =
        (GravitationalBit.init 1).decode.1 ∧
      (((fun x => GravitationalBit.propagate x 1)^[2]
          ((GravitationalBit.init 1).encode rnd0 1)).verify_integrity 1).1 = true) :=
  ⟨by decide, claim_propagate_decode_invariant (GravitationalBit.init 1) 1 2 1 1 rnd0 (by decide)⟩

/-- C3 counterexample: on the single-word text "dog." the index
tokeniser produces no token (stripped length 3) while the query
tokeniser produces "dog" (raw length 4), so the two are not equal as
functions. -/
theorem claim_tokenizer_equal_cex :
    indexTokens (codes "dog.") = [] ∧
    queryTokens (codes "dog.") = [codes "dog"] ∧
    indexTokens (codes "dog.") ≠ queryTokens (codes "dog.") := by
  decide

/-- C3 (amended): the index tokeniser is the query tokeniser filtered
to tokens whose stripped length exceeds 3 — the two agree except that
the query side also emits tokens whose raw length exceeds 3 while the
stripped length is at most 3. -/
theorem claim_tokenizer_refinement (s : List ℕ) :
    indexTokens s = (queryTokens s).filter fun t => decide (3 < t.length) :=
  indexTokens_eq_filter_queryTokens s

/-- C5: the constructor performs no validation.  At the failing inputs
L = 0 and L = -3 it returns normally, producing a unit with an empty
slot list whose decode is 0, instead of rejecting with an
InvalidConfiguration error. -/
theorem claim_invalid_level_not_rejected :
    (GravitationalBit.init 0).states = [] ∧
    (GravitationalBit.init (-3)).states = [] ∧
    (GravitationalBit.init 0).decode.1 = 0 ∧
    (GravitationalBit.init (-3)).decode.1 = 0 :=
  ⟨rfl, rfl, rfl, rfl⟩

/-- C6 counterexample: the prompt the source builds starts with
"Context (from gravitational memory):", not with the claimed literal
"Context:". -/
theorem claim_prompt_format_cex :
    (LLMRAGBooster.init "u" "k" "m" 15).askPrompt (codes "q") true 8 ≠
      codes "Context:\n" ++
        (LLMRAGBooster.init "u" "k" "m" 15).memory.retrieve_relevant_context (codes "q") 8 ++
        codes "\n\nQuestion: " ++ codes "q" ++
        codes "\n\nAnswer based on the context above:" := by
  decide

/-- C6 (amended): for every booster state, question and top_k, the
prompt sent to the completion boundary is exactly the literal prefix
"Context (from gravitational memory):" followed by a newline, the
retrieved context, a blank line, "Question: " plus the question, a
blank line, and the closing instruction line. -/
theorem claim_prompt_format (b : LLMRAGBooster) (question : List ℕ) (top_k : ℕ) :
    b.askPrompt question true top_k =
      codes "Context (from gravitational memory):\n" ++
        b.memory.retrieve_relevant_context question top_k ++
        codes "\n\nQuestion: " ++ question ++
        codes "\n\nAnswer based on the context above:" := rfl

/-- C8: for every level k the generated slot count is
k(k+1)(2k+1)/6; at the default level 15 it is 1240, matching both the
hardcoded declared_state_count of init and the states_per_bit formula
of get_stats. -/
theorem claim_slot_count_formula (k : ℕ) (api_url api_key model_name : String) :
    (GravitationalBit.init (k : ℤ)).states.length = k * (k + 1) * (2 * k + 1) / 6 ∧
    (GravitationalBit.init 15).states.length = 1240 ∧
    (allpath_init api_url api_key model_name).1.compression_states = 1240 ∧
    ((allpath_init api_url api_key model_name).2.get_stats).states_per_bit = 1240 := by
  refine ⟨init_states_length k, ?_, rfl, ?_⟩
  · have h := init_states_length 15
    have hc : ((15 : ℕ) : ℤ) = (15 : ℤ) := by norm_num
    rw [hc] at h
    rw [h]
  · show (15 : ℤ) * (15 + 1) * (2 * 15 + 1) / 6 = 1240
    decide

/-- C4 counterexample: with fragments stored in order a = "alpha",
b = "betab" and the two-token query "betab alpha", both fragments score
1, yet retrieve ranks b before a — the tie follows the score dict's
first-match insertion order (query-token order), not the store order. -/
theorem claim_tie_order_cex :
    scoreGet (buildScores memAB.index (queryTokens (codes "betab alpha"))) "a" =
      scoreGet (buildScores memAB.index (queryTokens (codes "betab alpha"))) "b" ∧
    memAB.storage.map Prod.fst = ["a", "b"] ∧
    memAB.top_chunks (codes "betab alpha") 8 = ["b", "a"] := by
  refine ⟨by decide, by decide, by decide⟩

/-- C4 (amended): whenever some query token matches, the returned
chunk ranking is pairwise ordered by score descending, with equal
scores ordered by the position at which the chunk id first entered the
score dict (query tokens processed in order, each token's index list in
its append order) — which equals store order for single-token queries
but not in general. -/
theorem claim_retrieve_ranking (mem : GravitationalMemory) (query : List ℕ) (top_k : ℕ)
    (h : buildScores mem.index (queryTokens query) ≠ []) :
    (mem.top_chunks query top_k).Pairwise
      (tieOrder (scoreGet (buildScores mem.index (queryTokens query)))
        fun a b =>
          ((buildScores mem.index (queryTokens query)).map Prod.fst).indexOf a <
            ((buildScores mem.index (queryTokens query)).map Prod.fst).indexOf b) := by
  have hnd := buildScores_keys_nodup mem.index (queryTokens query)
  have hpw : ((buildScores mem.index (queryTokens query)).map Prod.fst).Pairwise
      (fun a b =>
        ((buildScores mem.index (queryTokens query)).map Prod.fst).indexOf a <
          ((buildScores mem.index (queryTokens query)).map Prod.fst).indexOf b) := by
    rw [List.pairwise_iff_getElem]
    intro i j hi hj hij
    rw [List.indexOf_getElem hnd i hi, List.indexOf_getElem hnd j hj]
    exact hij
  have hsorted := pairwise_isortDesc
    (scoreGet (buildScores mem.index (queryTokens query))) _ _ hpw
  unfold GravitationalMemory.top_chunks
  rw [if_neg h]
  exact List.Pairwise.sublist (List.take_sublist _ _) hsorted

/-- Witness for C4 on the concrete two-fragment store. -/
theorem claim_retrieve_ranking_witness :
    buildScores memAB.index (queryTokens (codes "betab alpha")) ≠ [] ∧
    (memAB.top_chunks (codes "betab alpha") 8).Pairwise
      (tieOrder (scoreGet (buildScores memAB.index (queryTokens (codes "betab alpha"))))
        fun a b =>
          ((buildScores memAB.index (queryTokens (codes "betab alpha"))).map Prod.fst).indexOf a <
            ((buildScores memAB.index (queryTokens (codes "betab alpha"))).map Prod.fst).indexOf b) :=
  ⟨by decide, claim_retrieve_ranking memAB (codes "betab alpha") 8 (by decide)⟩

/-- C9: after any sequence of store_chunk calls on a fresh memory the
counters total_chunks and total_bits equal the number of calls while
the fragment store holds one entry per distinct id; a repeated id (the
concrete conjuncts) overwrites its fragment yet still increments the
counters, so the reported chunk count exceeds the fragments held. -/
theorem claim_counters_vs_fragments (calls : List (String × List ℕ)) (L : ℤ)
    (md5 : List ℕ → ℕ) (rnd : ℕ → ℝ) :
    (calls.foldl (fun m a => m.store_chunk md5 rnd a.1 a.2)
      (GravitationalMemory.init L)).total_chunks = calls.length ∧
    (calls.foldl (fun m a => m.store_chunk md5 rnd a.1 a.2)
      (GravitationalMemory.init L)).total_bits = calls.length ∧
    ((calls.foldl (fun m a => m.store_chunk md5 rnd a.1 a.2)
      (GravitationalMemory.init L)).storage.map Prod.fst).Nodup ∧
    (∀ k, k ∈ (calls.foldl (fun m a => m.store_chunk md5 rnd a.1 a.2)
      (GravitationalMemory.init L)).storage.map Prod.fst ↔ k ∈ calls.map Prod.fst) ∧
    (((GravitationalMemory.init 15).store_chunk md0 rnd0 "a" (codes "x")).store_chunk
      md0 rnd0 "a" (codes "y")).total_chunks = 2 ∧
    (((GravitationalMemory.init 15).store_chunk md0 rnd0 "a" (codes "x")).store_chunk
      md0 rnd0 "a" (codes "y")).storage.length = 1 := by
  refine ⟨?_, ?_, ?_, ?_, by decide, by decide⟩
  · have h := foldl_store_chunk_chunks md5 rnd Prod.fst Prod.snd calls
      (GravitationalMemory.init L)
    simpa [GravitationalMemory.init] using h
  · have h := foldl_store_chunk_bits md5 rnd Prod.fst Prod.snd calls
      (GravitationalMemory.init L)
    simpa [GravitationalMemory.init] using h
  · exact foldl_store_chunk_keys_nodup md5 rnd Prod.fst Prod.snd calls
      (GravitationalMemory.init L) (by simp [GravitationalMemory.init])
  · intro k
    have h := foldl_store_chunk_keys_mem md5 rnd Prod.fst Prod.snd calls
      (GravitationalMemory.init L) k
    simpa [GravitationalMemory.init] using h

/-- C7: ask never raises — every boundary outcome yields a value.  A
choices[0].message.content shape yields its content, a response shape
yields its response, an object matching none of the known shapes yields
the response serialised as text, and any raised transport or parse
exception yields a string prefixed with "ERROR calling LLM: ". -/
theorem claim_ask_response_shapes (X Y m : String) (fields : List (String × Json))
    (hf : ∀ p ∈ fields, p.1 ∉ (["choices", "content", "response", "message"] : List String)) :
    handleBoundary
        (.ok (.obj [("choices", .arr [.obj [("message", .obj [("content", .str X)])]])])) =
      .str X ∧
    handleBoundary (.ok (.obj [("response", .str Y)])) = .str Y ∧
    handleBoundary (.ok (.obj fields)) = .str (pyStr (.obj fields)) ∧
    handleBoundary (.exn m) = .str ("ERROR calling LLM: " ++ m) := by
  refine ⟨rfl, rfl, ?_, rfl⟩
  have hkey : ∀ kk : String, kk ∈ (["choices", "content", "response", "message"] : List String) →
      (fields.any fun p => p.1 == kk) = false := by
    intro kk hkk
    rw [List.any_eq_false]
    intro p hp
    simp only [beq_iff_eq]
    intro he
    exact hf p hp (he ▸ hkk)
  have hx : extractAnswer (.obj fields) = .ok (.str (pyStr (.obj fields))) := by
    unfold extractAnswer
    simp [pyContains, hkey "choices" (by simp), hkey "content" (by simp),
      hkey "response" (by simp), hkey "message" (by simp), Bind.bind, Except.bind,
      Pure.pure, Except.pure]
  simp [handleBoundary, hx]

/-- Witness for C7 at X = "X", Y = "Y", m = "boom" and the unknown
shape with single key "foo". -/
theorem claim_ask_response_shapes_witness :
    (∀ p ∈ ([("foo", Json.null)] : List (String × Json)),
      p.1 ∉ (["choices", "content", "response", "message"] : List String)) ∧
    (handleBoundary
        (.ok (.obj [("choices", .arr [.obj [("message", .obj [("content", .str "X")])]])])) =
      .str "X" ∧
    handleBoundary (.ok (.obj [("response", .str "Y")])) = .str "Y" ∧
    handleBoundary (.ok (.obj [("foo", Json.null)])) = .str (pyStr (.obj [("foo", Json.null)])) ∧
    handleBoundary (.exn "boom") = .str ("ERROR calling LLM: " ++ "boom")) :=
  ⟨by decide, claim_ask_response_shapes "X" "Y" "boom" [("foo", Json.null)] (by decide)⟩

/-- A text with at least one word yields at least one chunk. -/
theorem chunkTexts_length_pos (text : List ℕ) (hw : splitWords text ≠ []) :
    1 ≤ (chunkTexts 200 (splitWords text).length (splitWords text)).length := by
  cases hsw : splitWords text with
  | nil => exact absurd hsw hw
  | cons w rest =>
    simp only [List.length_cons, chunkTexts]
    omega

/-- After n store_document calls of the same text on a fresh level-L
memory, the cumulative unit counter is n times the chunk count per
call, and the level is unchanged. -/
theorem iter_store_document_stats (L : ℤ) (md5 : List ℕ → ℕ) (chunkId : List ℕ → String)
    (rnd : ℕ → ℝ) (text : List ℕ) :
    ∀ n : ℕ,
      ((fun m => (GravitationalMemory.store_document m md5 chunkId rnd text).2)^[n]
          (GravitationalMemory.init L)).total_bits =
        n * (chunkTexts 200 (splitWords text).length (splitWords text)).length ∧
      ((fun m => (GravitationalMemory.store_document m md5 chunkId rnd text).2)^[n]
          (GravitationalMemory.init L)).compression_level = L := by
  intro n
  induction n with
  | zero => exact ⟨by simp [GravitationalMemory.init], rfl⟩
  | succ n ih =>
    constructor
    · simp only [Function.iterate_succ_apply']
      rw [store_document_snd, foldl_store_chunk_bits, ih.1]
      ring
    · simp only [Function.iterate_succ_apply']
      rw [store_document_snd, foldl_store_chunk_level]
      exact ih.2

/-- Closed form of the ratio reported by the (n+1)-th repeated
store_document call: the denominator carries the cumulative unit count
(n+1 calls worth), not the units of the current call alone. -/
theorem docRatioSeq_formula (L : ℤ) (hL : 0 < L) (text : List ℕ)
    (hw : splitWords text ≠ []) (md5 : List ℕ → ℕ) (chunkId : List ℕ → String)
    (rnd : ℕ → ℝ) (n : ℕ) :
    docRatioSeq L md5 chunkId rnd text n =
      (text.length : ℚ) /
        (((n : ℚ) + 1) *
          ((chunkTexts 200 (splitWords text).length (splitWords text)).length : ℚ) *
          ((L : ℚ) * (L : ℚ))) := by
  have hk := chunkTexts_length_pos text hw
  obtain ⟨hb, hl2⟩ := iter_store_document_stats L md5 chunkId rnd text n
  unfold docRatioSeq
  rw [store_document_ratio]
  rw [store_document_snd, foldl_store_chunk_bits, foldl_store_chunk_level, hb, hl2]
  have hLq : (0 : ℚ) < (L : ℚ) := by exact_mod_cast hL
  set K := (chunkTexts 200 (splitWords text).length (splitWords text)).length with hK
  have hcomp : (0 : ℚ) < ((n * K + K : ℕ) : ℚ) * ((L : ℚ) * (L : ℚ)) := by
    have h0 : 0 < n * K + K := by omega
    have h1 : (0 : ℚ) < ((n * K + K : ℕ) : ℚ) := by exact_mod_cast h0
    exact mul_pos h1 (mul_pos hLq hLq)
  rw [if_pos hcomp]
  congr 1
  push_cast
  ring

/-- C10 (amended): for a text containing at least one word and a
positive level, the ratio of the (n+1)-th repeated store_document call
on an initially empty memory is len(text) / ((n+1) * chunks * level^2):
the denominator uses the memory-wide cumulative unit count, the
sequence of ratios is strictly decreasing, and the second call reports
half the first call's ratio. -/
theorem claim_ratio_cumulative (L : ℤ) (hL : 0 < L) (text : List ℕ)
    (hw : splitWords text ≠ []) (md5 : List ℕ → ℕ) (chunkId : List ℕ → String)
    (rnd : ℕ → ℝ) (n : ℕ) :
    docRatioSeq L md5 chunkId rnd text n =
      (text.length : ℚ) /
        (((n : ℚ) + 1) *
          ((chunkTexts 200 (splitWords text).length (splitWords text)).length : ℚ) *
          ((L : ℚ) * (L : ℚ))) ∧
    docRatioSeq L md5 chunkId rnd text (n + 1) < docRatioSeq L md5 chunkId rnd text n ∧
    docRatioSeq L md5 chunkId rnd text 1 = docRatioSeq L md5 chunkId rnd text 0 / 2 := by
  have hA : (0 : ℚ) < (text.length : ℚ) := by
    have ht : text ≠ [] := by
      intro he
      rw [he] at hw
      exact hw rfl
    have hp : 0 < text.length := List.length_pos.mpr ht
    exact_mod_cast hp
  have hk := chunkTexts_length_pos text hw
  have hLq : (0 : ℚ) < (L : ℚ) := by exact_mod_cast hL
  have hKq : (0 : ℚ) <
      ((chunkTexts 200 (splitWords text).length (splitWords text)).length : ℚ) := by
    exact_mod_cast hk
  have hD : ∀ m : ℕ, (0 : ℚ) < ((m : ℚ) + 1) *
      ((chunkTexts 200 (splitWords text).length (splitWords text)).length : ℚ) *
      ((L : ℚ) * (L : ℚ)) := by
    intro m
    have hm : (0 : ℚ) < (m : ℚ) + 1 := by positivity
    exact mul_pos (mul_pos hm hKq) (mul_pos hLq hLq)
  refine ⟨docRatioSeq_formula L hL text hw md5 chunkId rnd n, ?_, ?_⟩
  · rw [docRatioSeq_formula L hL text hw md5 chunkId rnd n,
      docRatioSeq_formula L hL text hw md5 chunkId rnd (n + 1)]
    apply div_lt_div_of_pos_left hA (hD n)
    have hKL : (0 : ℚ) <
        ((chunkTexts 200 (splitWords text).length (splitWords text)).length : ℚ) *
        ((L : ℚ) * (L : ℚ)) := mul_pos hKq (mul_pos hLq hLq)
    have hlt : ((n : ℚ) + 1) < ((n + 1 : ℕ) : ℚ) + 1 := by push_cast; linarith
    calc ((n : ℚ) + 1) *
          ((chunkTexts 200 (splitWords text).length (splitWords text)).length : ℚ) *
          ((L : ℚ) * (L : ℚ))
        = ((n : ℚ) + 1) *
          (((chunkTexts 200 (splitWords text).length (splitWords text)).length : ℚ) *
            ((L : ℚ) * (L : ℚ))) := by ring
      _ < (((n + 1 : ℕ) : ℚ) + 1) *
          (((chunkTexts 200 (splitWords text).length (splitWords text)).length : ℚ) *
            ((L : ℚ) * (L : ℚ))) := by
          exact mul_lt_mul_of_pos_right hlt hKL
      _ = (((n + 1 : ℕ) : ℚ) + 1) *
          ((chunkTexts 200 (splitWords text).length (splitWords text)).length : ℚ) *
          ((L : ℚ) * (L : ℚ)) := by ring
  · rw [docRatioSeq_formula L hL text hw md5 chunkId rnd 1,
      docRatioSeq_formula L hL text hw md5 chunkId rnd 0, div_div]
    congr 1
    push_cast
    ring

/-- Witness for C10 at level 15, text "hello", n = 0. -/
theorem claim_ratio_cumulative_witness :
    ((0 : ℤ) < 15 ∧ splitWords (codes "hello") ≠ []) ∧
    (docRatioSeq 15 md0 id0 rnd0 (codes "hello") 0 =
        ((codes "hello").length : ℚ) /
          ((((0 : ℕ) : ℚ) + 1) *
            ((chunkTexts 200 (splitWords (codes "hello")).length
              (splitWords (codes "hello"))).length : ℚ) *
            (((15 : ℤ) : ℚ) * ((15 : ℤ) : ℚ))) ∧
      docRatioSeq 15 md0 id0 rnd0 (codes "hello") (0 + 1) <
        docRatioSeq 15 md0 id0 rnd0 (codes "hello") 0 ∧
      docRatioSeq 15 md0 id0 rnd0 (codes "hello") 1 =
        docRatioSeq 15 md0 id0 rnd0 (codes "hello") 0 / 2) :=
  ⟨⟨by decide, by decide⟩,
    claim_ratio_cumulative 15 (by decide) (codes "hello") (by decide) md0 id0 rnd0 0⟩

/-- C10 counterexample: the whitespace-only text " " is non-empty but
contains no word, so every repeated store_document call stores zero
chunks and reports ratio 0 — the ratio sequence is not strictly
decreasing for this non-empty text. -/
theorem claim_ratio_whitespace_cex :
    codes " " ≠ [] ∧
    docRatioSeq 15 md0 id0 rnd0 (codes " ") 0 = 0 ∧
    docRatioSeq 15 md0 id0 rnd0 (codes " ") 1 = 0 ∧
    ¬(docRatioSeq 15 md0 id0 rnd0 (codes " ") 1 <
        docRatioSeq 15 md0 id0 rnd0 (codes " ") 0) := by
  have hchunk : chunkTexts 200 (splitWords (codes " ")).length (splitWords (codes " ")) = [] := by
    have h0 : splitWords (codes " ") = [] := by decide
    rw [h0]
    rfl
  have hr : ∀ n : ℕ, docRatioSeq 15 md0 id0 rnd0 (codes " ") n = 0 := by
    intro n
    have hb := (iter_store_document_stats 15 md0 id0 rnd0 (codes " ") n).1
    rw [hchunk] at hb
    simp only [List.length_nil, Nat.mul_zero] at hb
    unfold docRatioSeq
    rw [store_document_ratio, store_document_snd, hchunk]
    simp only [List.foldl_nil, hb]
    simp
  refine ⟨by decide, hr 0, hr 1, ?_⟩
  rw [hr 0, hr 1]
  exact lt_irrefl 0
